import Mathlib

/-!
Shallow embedding of `pkg/certificate/certificateCollection.go` from the vcert
repository, together with theorems checking the module's specification.

Modelling conventions:
* A byte buffer (or Go string) holding concatenated PEM text is modelled as a
  `List PEMBlock`: the sequence of well-formed PEM blocks it contains, in order.
  `pem.Decode` pops the first block; `pem.EncodeToMemory` produces a singleton.
* An `x509.Certificate` is abstracted to its raw DER bytes (`cert.Raw`), which is
  the only field the module reads.
* The external collaborators (the success predicate of `x509.ParseCertificate`,
  the key parsers used by `ToTLSCertificate`, and the private-key PEM encoding
  helpers that live outside this file in the package) are parameters, gathered
  in an `Env` record: the module's behavior is proved for every instantiation.
* Go functions that return `error` become `Except String`; mutating methods
  become state-passing functions returning the post-state (and the error, when
  the method can fail); a Go nil-pointer dereference (possible in
  `ToTLSCertificate`) is modelled by `Option`, `none` marking the panic.
-/

namespace VCert

/-- A decoded PEM block: its label (`Type` in Go) and its DER payload bytes. -/
structure PEMBlock where
  type : String
  bytes : List Nat
deriving DecidableEq, Repr

/-- An X.509 certificate, abstracted to its raw DER bytes (`cert.Raw`). -/
structure X509Certificate where
  raw : List Nat
deriving DecidableEq, Repr

/-- A `crypto.Signer` private key, abstracted to an identifier. -/
structure Signer where
  id : Nat
deriving DecidableEq, Repr

/-- The result type of `ToTLSCertificate`: Go's `tls.Certificate`, keeping the
two fields the function fills (DER chain and parsed private key). -/
structure TLSCertificate where
  Certificate : List (List Nat) := []
  PrivateKey : Option (List Nat) := none
deriving DecidableEq, Repr

/-- External collaborators of the module, as parameters: `parseCertOk` is the
success predicate of `x509.ParseCertificate` (a certificate that parses has
`Raw` equal to the input bytes); the three key parsers return `none` exactly
when the corresponding Go parser returns an error (or a nil key); the last two
fields are the package's private-key PEM encoding helpers, which are declared
outside the parsed source file. -/
structure Env where
  parseCertOk : List Nat → Bool
  parseECPrivateKey : List Nat → Option (List Nat)
  parsePKCS1PrivateKey : List Nat → Option (List Nat)
  parsePKCS8PrivateKey : List Nat → Option (List Nat)
  GetPrivateKeyPEMBock : Signer → String → Except String PEMBlock
  GetEncryptedPrivateKeyPEMBock : Signer → List Nat → String → Except String PEMBlock

/-- `x509.ParseCertificate(der)`: succeeds iff the environment's predicate
accepts the bytes; on success the certificate's `Raw` is the input bytes. -/
def parseCertificate (env : Env) (der : List Nat) : Except String X509Certificate :=
  if env.parseCertOk der then .ok ⟨der⟩ else .error "x509: malformed certificate"

/-- `pem.Decode` on a buffer modelled as its list of PEM blocks: returns the
first block and the remaining buffer, or nil (`none`) on an empty buffer. -/
def pemDecode : List PEMBlock → Option (PEMBlock × List PEMBlock)
  | [] => none
  | b :: rest => some (b, rest)

/-- `pem.EncodeToMemory`: the encoded text of a single block is the buffer
holding exactly that block. -/
def pemEncodeToMemory (b : PEMBlock) : List PEMBlock := [b]

/-- Modelled from the spec: `GetCertificatePEMBlock` (declared elsewhere in the
package, not in the parsed source file) wraps raw DER certificate bytes in a
PEM block labeled CERTIFICATE. -/
def GetCertificatePEMBlock (raw : List Nat) : PEMBlock := ⟨"CERTIFICATE", raw⟩

/-- `ChainOption` represents the options to be used with the certificate chain. -/
inductive ChainOption where
  | RootLast
  | RootFirst
  | Ignore
deriving DecidableEq, Repr

/-- Go's `strings.ToLower`, modelled character-wise (ASCII case folding). -/
def stringsToLower (s : String) : String := ⟨s.data.map Char.toLower⟩

/-- `ChainOptionFromString` converts the string to the corresponding
`ChainOption` (the source's `switch` on the lowered string). -/
def ChainOptionFromString (order : String) : ChainOption :=
  if stringsToLower order = "root-first" then ChainOption.RootFirst
  else if stringsToLower order = "ignore" then ChainOption.Ignore
  else ChainOption.RootLast

/-- `PEMCollection` represents a collection of PEM data; each field is a PEM
text buffer (`Chain` a list of them), empty when absent. -/
structure PEMCollection where
  Certificate : List PEMBlock := []
  PrivateKey : List PEMBlock := []
  Chain : List (List PEMBlock) := []
  CSR : List PEMBlock := []
deriving DecidableEq, Repr

/-- The `currentFormat` computation shared by `NewPEMCollection` and
`AddPrivateKey`: the first variadic argument when present and nonempty. -/
def currentFormatOf (format : List String) : String :=
  match format with
  | f :: _ => if f = "" then "" else f
  | [] => ""

/-- `NewPEMCollection` creates a `PEMCollection` based on the data being
passed in. -/
def NewPEMCollection (env : Env) (certificate : Option X509Certificate)
    (privateKey : Option Signer) (privateKeyPassword : List Nat)
    (format : List String) : Except String PEMCollection :=
  let currentFormat := currentFormatOf format
  let col1 : PEMCollection :=
    match certificate with
    | some cert =>
        { Certificate := pemEncodeToMemory (GetCertificatePEMBlock cert.raw) }
    | none => {}
  match privateKey with
  | none => .ok col1
  | some k =>
      match (if privateKeyPassword.length > 0 then
               env.GetEncryptedPrivateKeyPEMBock k privateKeyPassword currentFormat
             else
               env.GetPrivateKeyPEMBock k currentFormat) with
      | .error e => .error e
      | .ok p => .ok { col1 with PrivateKey := pemEncodeToMemory p }

/-- `AddPrivateKey` adds a private key to the `PEMCollection`; the collection
can only contain one private key. Returns the post-state and the error, the
state unchanged when an error is returned (as in Go, where the method returns
before mutating). -/
def AddPrivateKey (env : Env) (col : PEMCollection) (privateKey : Signer)
    (privateKeyPassword : List Nat) (format : List String) :
    PEMCollection × Option String :=
  let currentFormat := currentFormatOf format
  if col.PrivateKey ≠ [] then
    (col, some "vcert error: the PEM Collection can only contain one private key")
  else
    match (if privateKeyPassword.length > 0 then
             env.GetEncryptedPrivateKeyPEMBock privateKey privateKeyPassword currentFormat
           else
             env.GetPrivateKeyPEMBock privateKey currentFormat) with
    | .error e => (col, some e)
    | .ok p => ({ col with PrivateKey := pemEncodeToMemory p }, none)

/-- `AddChainElement` adds a chain element to the collection (post-state and
error; a nil certificate is refused and leaves the state unchanged). -/
def AddChainElement (col : PEMCollection) (certificate : Option X509Certificate) :
    PEMCollection × Option String :=
  match certificate with
  | none => (col, some "vcert error: certificate cannot be nil")
  | some cert =>
      ({ col with
          Chain := col.Chain ++ [pemEncodeToMemory (GetCertificatePEMBlock cert.raw)] },
       none)

/-- The labels of the source's private-key `case` in `PEMCollectionFromBytes`. -/
def isKeyPEMType (t : String) : Bool :=
  t = "RSA PRIVATE KEY" || t = "EC PRIVATE KEY" ||
  t = "ENCRYPTED PRIVATE KEY" || t = "PRIVATE KEY"

/-- The scanning loop of `PEMCollectionFromBytes`: decode one block at a time;
a CERTIFICATE block is x509-parsed (aborting the parse on failure) and appended
to `chain`; a private-key block sets `privPEM` to `string(current)`, the whole
remaining buffer starting at that block; other labels are skipped. -/
def scanBundle (env : Env) : List PEMBlock → List X509Certificate → List PEMBlock →
    Except String (List X509Certificate × List PEMBlock)
  | [], chain, privPEM => .ok (chain, privPEM)
  | p :: remaining, chain, privPEM =>
      if p.type = "CERTIFICATE" then
        match parseCertificate env p.bytes with
        | .error e => .error e
        | .ok cert => scanBundle env remaining (chain ++ [cert]) privPEM
      else if isKeyPEMType p.type then
        scanBundle env remaining chain (p :: remaining)
      else
        scanBundle env remaining chain privPEM

/-- The chain-population loop of `PEMCollectionFromBytes`: `AddChainElement`
on each certificate, aborting on error. -/
def addChainElements (col : PEMCollection) : List X509Certificate →
    Except String PEMCollection
  | [] => .ok col
  | c :: cs =>
      match AddChainElement col (some c) with
      | (col2, none) => addChainElements col2 cs
      | (_, some e) => .error e

/-- The post-scan assembly step of `PEMCollectionFromBytes`: the `switch` on
`chainOrder` under `len(chain) > 0`, selecting the single certificate and the
chain elements by policy. -/
def selectCollection (env : Env) (chain : List X509Certificate)
    (chainOrder : ChainOption) : Except String PEMCollection :=
  match chain with
  | [] => .ok {}
  | c0 :: rest =>
      if chainOrder = ChainOption.RootFirst then
        match NewPEMCollection env
            (some ((c0 :: rest).getLast (List.cons_ne_nil c0 rest))) none [] [] with
        | .error e => .error e
        | .ok col =>
            if (c0 :: rest).length > 1 ∧ chainOrder ≠ ChainOption.Ignore then
              addChainElements col (c0 :: rest).dropLast
            else .ok col
      else
        match NewPEMCollection env (some c0) none [] [] with
        | .error e => .error e
        | .ok col =>
            if (c0 :: rest).length > 1 ∧ chainOrder ≠ ChainOption.Ignore then
              addChainElements col rest
            else .ok col

/-- `PEMCollectionFromBytes` creates a `PEMCollection` based on the data
passed in: scan the buffer, assemble by policy, then overwrite `PrivateKey`
with the captured key region. -/
def PEMCollectionFromBytes (env : Env) (certBytes : List PEMBlock)
    (chainOrder : ChainOption) : Except String PEMCollection :=
  match scanBundle env certBytes [] [] with
  | .error e => .error e
  | .ok (chain, privPEM) =>
      match selectCollection env chain chainOrder with
      | .error e => .error e
      | .ok collection => .ok { collection with PrivateKey := privPEM }

/-- The chain loop of `ToTLSCertificate`: decode each chain entry, collecting
the DER payloads; `none` marks the nil dereference on an undecodable entry. -/
def decodeChainDER : List (List PEMBlock) → Option (List (List Nat))
  | [] => some []
  | c :: cs =>
      match pemDecode c with
      | none => none
      | some (b, _) =>
          match decodeChainDER cs with
          | none => none
          | some rest => some (b.bytes :: rest)

/-- `ToTLSCertificate`: decode `Certificate`, the chain entries, and
`PrivateKey`, dispatch on the key block's label (EC, RSA with PKCS#8 fallback,
anything else silently leaves the key unset). Each `pem.Decode` result is
dereferenced without a nil check in the source; `none` models that panic. -/
def ToTLSCertificate (env : Env) (col : PEMCollection) : Option TLSCertificate :=
  match pemDecode col.Certificate with
  | none => none
  | some (b, _) =>
      match decodeChainDER col.Chain with
      | none => none
      | some chainDER =>
          match pemDecode col.PrivateKey with
          | none => none
          | some (bk, _) =>
              let privKey : Option (List Nat) :=
                if bk.type = "EC PRIVATE KEY" then
                  env.parseECPrivateKey bk.bytes
                else if bk.type = "RSA PRIVATE KEY" then
                  match env.parsePKCS1PrivateKey bk.bytes with
                  | some k => some k
                  | none => env.parsePKCS8PrivateKey bk.bytes
                else none
              some { Certificate := b.bytes :: chainDER, PrivateKey := privKey }

/-- A concrete environment instantiation used to evaluate the model on
explicit inputs: every nonempty byte string parses as a certificate, key
parsers fail, key encoding yields fixed blocks. -/
def defaultEnv : Env where
  parseCertOk := fun bs => !bs.isEmpty
  parseECPrivateKey := fun _ => none
  parsePKCS1PrivateKey := fun _ => none
  parsePKCS8PrivateKey := fun _ => none
  GetPrivateKeyPEMBock := fun _ _ => .ok ⟨"RSA PRIVATE KEY", [9, 9]⟩
  GetEncryptedPrivateKeyPEMBock := fun _ _ _ => .ok ⟨"ENCRYPTED PRIVATE KEY", [8, 8]⟩

/-! ### Helper lemmas -/

/-- `NewPEMCollection` with a certificate and no key always succeeds, producing
the collection holding just the encoded certificate. -/
theorem newPEMCollection_cert_only (env : Env) (cert : X509Certificate)
    (pw : List Nat) (fmt : List String) :
    NewPEMCollection env (some cert) none pw fmt =
      .ok { Certificate := pemEncodeToMemory (GetCertificatePEMBlock cert.raw) } := rfl

/-- `addChainElements` never fails and appends the encoded certificates to the
chain in order. -/
theorem addChainElements_eq (col : PEMCollection) (certs : List X509Certificate) :
    addChainElements col certs =
      .ok { col with Chain := col.Chain ++
              certs.map (fun c => pemEncodeToMemory (GetCertificatePEMBlock c.raw)) } := by
  induction certs generalizing col with
  | nil => simp [addChainElements]
  | cons c cs ih =>
      simp only [addChainElements, AddChainElement, List.map_cons]
      rw [ih]
      simp [List.append_assoc]

/-- When every block of the buffer is a CERTIFICATE block that x509-parses,
the scan succeeds, appends the parsed certificates in decode order, and leaves
the captured key region untouched. -/
theorem scanBundle_allCerts (env : Env) (bs : List PEMBlock)
    (acc : List X509Certificate) (priv : List PEMBlock)
    (hall : ∀ b ∈ bs, b.type = "CERTIFICATE" ∧ env.parseCertOk b.bytes = true) :
    scanBundle env bs acc priv =
      .ok (acc ++ bs.map (fun b => X509Certificate.mk b.bytes), priv) := by
  induction bs generalizing acc with
  | nil => simp [scanBundle]
  | cons b rest ih =>
      obtain ⟨hb, hok⟩ := hall b (by simp)
      simp only [scanBundle, hb, if_pos, parseCertificate, hok, if_true]
      rw [ih (acc ++ [X509Certificate.mk b.bytes]) (fun x hx => hall x (by simp [hx]))]
      simp [List.append_assoc]

/-- If some block of the buffer is a CERTIFICATE block that fails x509
parsing, the scan returns an error. -/
theorem scanBundle_err (env : Env) (bs : List PEMBlock)
    (acc : List X509Certificate) (priv : List PEMBlock)
    (hbad : ∃ b ∈ bs, b.type = "CERTIFICATE" ∧ env.parseCertOk b.bytes = false) :
    ∃ e, scanBundle env bs acc priv = .error e := by
  induction bs generalizing acc priv with
  | nil => simp at hbad
  | cons b rest ih =>
      obtain ⟨w, hw, hwt, hwbad⟩ := hbad
      by_cases hb : b.type = "CERTIFICATE"
      · cases hok : env.parseCertOk b.bytes with
        | false =>
            exact ⟨"x509: malformed certificate",
              by simp [scanBundle, hb, parseCertificate, hok]⟩
        | true =>
            have hwrest : w ∈ rest := by
              rcases List.mem_cons.mp hw with h | h
              · subst h; rw [hok] at hwbad; cases hwbad
              · exact h
            obtain ⟨e, he⟩ := ih (acc ++ [⟨b.bytes⟩]) priv ⟨w, hwrest, hwt, hwbad⟩
            exact ⟨e, by simp [scanBundle, hb, parseCertificate, hok, he]⟩
      · have hwrest : w ∈ rest := by
          rcases List.mem_cons.mp hw with h | h
          · subst h; exact absurd hwt hb
          · exact h
        by_cases hk : isKeyPEMType b.type = true
        · obtain ⟨e, he⟩ := ih acc (b :: rest) ⟨w, hwrest, hwt, hwbad⟩
          exact ⟨e, by simp [scanBundle, hb, hk, he]⟩
        · obtain ⟨e, he⟩ := ih acc priv ⟨w, hwrest, hwt, hwbad⟩
          exact ⟨e, by simp [scanBundle, hb, hk, he]⟩

/-- A key-labeled block is not a CERTIFICATE block. -/
theorem isKeyPEMType_ne_certificate {t : String} (h : isKeyPEMType t = true) :
    t ≠ "CERTIFICATE" := by
  intro he
  subst he
  simp [isKeyPEMType] at h

/-- When the buffer holds no key-labeled block, a successful scan leaves the
captured key region at its initial value. -/
theorem scanBundle_noKey (env : Env) (bs : List PEMBlock)
    (hnk : ∀ b ∈ bs, isKeyPEMType b.type = false)
    (acc : List X509Certificate) (priv : List PEMBlock)
    (c : List X509Certificate) (p : List PEMBlock)
    (hok : scanBundle env bs acc priv = .ok (c, p)) : p = priv := by
  induction bs generalizing acc priv with
  | nil =>
      simp only [scanBundle, Except.ok.injEq, Prod.mk.injEq] at hok
      exact hok.2.symm
  | cons b rest ih =>
      by_cases hb : b.type = "CERTIFICATE"
      · simp only [scanBundle, hb, if_pos] at hok
        cases hc : parseCertificate env b.bytes with
        | error e => rw [hc] at hok; cases hok
        | ok cert =>
            rw [hc] at hok
            exact ih (fun x hx => hnk x (by simp [hx])) _ priv hok
      · have hk : isKeyPEMType b.type = false := hnk b (by simp)
        simp only [scanBundle, hb, if_neg, hk, Bool.false_eq_true, if_false] at hok
        exact ih (fun x hx => hnk x (by simp [hx])) _ priv hok

/-- When the buffer ends with a key-labeled block followed only by non-key
blocks, a successful scan captures exactly that block and the trailing blocks
after it. -/
theorem scanBundle_keySuffix (env : Env) (pre post : List PEMBlock) (k : PEMBlock)
    (hk : isKeyPEMType k.type = true)
    (hpost : ∀ b ∈ post, isKeyPEMType b.type = false)
    (acc : List X509Certificate) (priv : List PEMBlock)
    (c : List X509Certificate) (p : List PEMBlock)
    (hok : scanBundle env (pre ++ k :: post) acc priv = .ok (c, p)) :
    p = k :: post := by
  induction pre generalizing acc priv with
  | nil =>
      simp only [List.nil_append, scanBundle,
        isKeyPEMType_ne_certificate hk, if_neg, hk, if_pos, if_true] at hok
      exact scanBundle_noKey env post hpost _ _ _ _ hok
  | cons b pre' ih =>
      simp only [List.cons_append, scanBundle] at hok
      by_cases hb : b.type = "CERTIFICATE"
      · rw [if_pos hb] at hok
        cases hc : parseCertificate env b.bytes with
        | error e => rw [hc] at hok; cases hok
        | ok cert =>
            rw [hc] at hok
            exact ih _ priv hok
      · rw [if_neg hb] at hok
        by_cases hbk : isKeyPEMType b.type = true
        · rw [if_pos hbk] at hok
          exact ih _ _ hok
        · rw [if_neg hbk] at hok
          exact ih _ priv hok

/-- Assembly under `RootLast` (the `default` branch, chain not ignored): the
first certificate becomes the collection's certificate, the rest the chain. -/
theorem selectCollection_rootLast (env : Env) (c0 : X509Certificate)
    (cs : List X509Certificate) :
    selectCollection env (c0 :: cs) ChainOption.RootLast =
      .ok { Certificate := pemEncodeToMemory (GetCertificatePEMBlock c0.raw),
            Chain := cs.map (fun c => pemEncodeToMemory (GetCertificatePEMBlock c.raw)) } := by
  cases cs with
  | nil => rfl
  | cons c1 cs' =>
      simp only [selectCollection, reduceCtorEq, if_false, newPEMCollection_cert_only,
        List.length_cons, if_pos]
      rw [if_pos (by refine ⟨by omega, by simp⟩)]
      rw [addChainElements_eq]
      simp

/-- Assembly under `Ignore`: the first certificate is kept and the chain is
left empty. -/
theorem selectCollection_ignore (env : Env) (c0 : X509Certificate)
    (cs : List X509Certificate) :
    selectCollection env (c0 :: cs) ChainOption.Ignore =
      .ok { Certificate := pemEncodeToMemory (GetCertificatePEMBlock c0.raw) } := by
  simp only [selectCollection, reduceCtorEq, if_false, newPEMCollection_cert_only]
  rw [if_neg (by simp)]

/-- Assembly under `RootFirst`: the last certificate becomes the collection's
certificate, the preceding ones the chain, in order. -/
theorem selectCollection_rootFirst (env : Env) (cs : List X509Certificate)
    (clast : X509Certificate) :
    selectCollection env (cs ++ [clast]) ChainOption.RootFirst =
      .ok { Certificate := pemEncodeToMemory (GetCertificatePEMBlock clast.raw),
            Chain := cs.map (fun c => pemEncodeToMemory (GetCertificatePEMBlock c.raw)) } := by
  cases cs with
  | nil => rfl
  | cons c1 cs' =>
      have hlast : (c1 :: (cs' ++ [clast])).getLast (List.cons_ne_nil c1 (cs' ++ [clast]))
          = clast := by
        simp [List.getLast_append]
      simp only [List.cons_append, selectCollection, if_pos, hlast,
        newPEMCollection_cert_only]
      rw [if_pos (by refine ⟨by simp, by simp⟩)]
      have hdrop : (c1 :: (cs' ++ [clast])).dropLast = c1 :: cs' := by
        rw [List.dropLast_cons_of_ne_nil (by simp)]
        simp
      rw [hdrop, addChainElements_eq]
      simp

/-! ### Claim theorems -/

/-- C1: for a bundle of N ≥ 1 concatenated PEM blocks that all parse as X.509
certificates, parsing with the `RootLast` policy yields a collection whose
`Certificate` is the PEM encoding of the first certificate in decode order and
whose `Chain` is the PEM encodings of certificates 2..N in their original
decode order, of length N-1. -/
theorem bundle_rootLast_spec (env : Env) (b0 : PEMBlock) (rest : List PEMBlock)
    (hall : ∀ b ∈ b0 :: rest, b.type = "CERTIFICATE" ∧ env.parseCertOk b.bytes = true) :
    ∃ col, PEMCollectionFromBytes env (b0 :: rest) ChainOption.RootLast = .ok col ∧
      col.Certificate = pemEncodeToMemory (GetCertificatePEMBlock b0.bytes) ∧
      col.Chain = rest.map (fun b => pemEncodeToMemory (GetCertificatePEMBlock b.bytes)) ∧
      col.Chain.length = rest.length := by
  have hscan := scanBundle_allCerts env (b0 :: rest) [] [] hall
  unfold PEMCollectionFromBytes
  rw [hscan]
  simp only [List.nil_append, List.map_cons]
  rw [selectCollection_rootLast]
  exact ⟨_, rfl, rfl, by simp [List.map_map, Function.comp], by simp⟩

/-- C2: for the same bundle, parsing with the `RootFirst` policy yields a
collection whose `Certificate` is the PEM encoding of the last certificate in
decode order and whose `Chain` is the PEM encodings of certificates 1..N-1 in
their original decode order, of length N-1. -/
theorem bundle_rootFirst_spec (env : Env) (bsInit : List PEMBlock) (bLast : PEMBlock)
    (hall : ∀ b ∈ bsInit ++ [bLast], b.type = "CERTIFICATE" ∧ env.parseCertOk b.bytes = true) :
    ∃ col, PEMCollectionFromBytes env (bsInit ++ [bLast]) ChainOption.RootFirst = .ok col ∧
      col.Certificate = pemEncodeToMemory (GetCertificatePEMBlock bLast.bytes) ∧
      col.Chain = bsInit.map (fun b => pemEncodeToMemory (GetCertificatePEMBlock b.bytes)) ∧
      col.Chain.length = bsInit.length := by
  have hscan := scanBundle_allCerts env (bsInit ++ [bLast]) [] [] hall
  unfold PEMCollectionFromBytes
  rw [hscan]
  simp only [List.nil_append, List.map_append, List.map_cons, List.map_nil]
  rw [selectCollection_rootFirst env (bsInit.map (fun b => X509Certificate.mk b.bytes))
    (X509Certificate.mk bLast.bytes)]
  exact ⟨_, rfl, rfl, by simp [List.map_map, Function.comp], by simp⟩

/-- C3: for the same bundle, parsing with the `Ignore` policy yields a
collection whose `Chain` is empty regardless of N and whose `Certificate` is
the PEM encoding of the first certificate in decode order (the same selection
rule as `RootLast`). -/
theorem bundle_ignore_spec (env : Env) (b0 : PEMBlock) (rest : List PEMBlock)
    (hall : ∀ b ∈ b0 :: rest, b.type = "CERTIFICATE" ∧ env.parseCertOk b.bytes = true) :
    ∃ col, PEMCollectionFromBytes env (b0 :: rest) ChainOption.Ignore = .ok col ∧
      col.Chain = [] ∧
      col.Certificate = pemEncodeToMemory (GetCertificatePEMBlock b0.bytes) := by
  have hscan := scanBundle_allCerts env (b0 :: rest) [] [] hall
  unfold PEMCollectionFromBytes
  rw [hscan]
  simp only [List.nil_append, List.map_cons]
  rw [selectCollection_ignore]
  exact ⟨_, rfl, rfl, rfl⟩

/-- A successful `PEMCollectionFromBytes` run decomposes into a successful
scan and a successful assembly, with `PrivateKey` overwritten by the captured
key region. -/
theorem pemCollectionFromBytes_ok_elim (env : Env) (bs : List PEMBlock)
    (order : ChainOption) (col : PEMCollection)
    (h : PEMCollectionFromBytes env bs order = .ok col) :
    ∃ chain priv collection,
      scanBundle env bs [] [] = .ok (chain, priv) ∧
      selectCollection env chain order = .ok collection ∧
      col = { collection with PrivateKey := priv } := by
  unfold PEMCollectionFromBytes at h
  split at h
  · cases h
  · rename_i chain priv heq
    split at h
    · cases h
    · rename_i collection hsel
      injection h with h2
      exact ⟨chain, priv, collection, heq, hsel, h2.symm⟩

/-- C4: building a collection from an in-memory certificate and a signing key
and exporting it yields a runtime certificate whose first (leaf) DER entry is
the original certificate's raw DER bytes. -/
theorem newFromCertificate_export_roundtrip (env : Env) (cert : X509Certificate)
    (k : Signer) (pw : List Nat) (fmt : List String) (col : PEMCollection)
    (hok : NewPEMCollection env (some cert) (some k) pw fmt = .ok col) :
    ∃ tls, ToTLSCertificate env col = some tls ∧
      tls.Certificate.head? = some cert.raw := by
  have hok2 : (match (if pw.length > 0 then
        env.GetEncryptedPrivateKeyPEMBock k pw (currentFormatOf fmt)
      else
        env.GetPrivateKeyPEMBock k (currentFormatOf fmt)) with
    | Except.error e => Except.error e
    | Except.ok p =>
        Except.ok { Certificate := pemEncodeToMemory (GetCertificatePEMBlock cert.raw),
                    PrivateKey := pemEncodeToMemory p,
                    Chain := [], CSR := [] }) = Except.ok col := hok
  clear hok
  split at hok2
  · cases hok2
  · rename_i p henc
    injection hok2 with h2
    subst h2
    exact ⟨_, rfl, rfl⟩

/-- C5: the captured private-key region of a successful bundle parse is the
raw input starting at the last private-key block encountered, including any
trailing blocks verbatim. -/
theorem privateKey_capture_suffix (env : Env) (pre post : List PEMBlock)
    (k : PEMBlock) (order : ChainOption) (col : PEMCollection)
    (hk : isKeyPEMType k.type = true)
    (hpost : ∀ b ∈ post, isKeyPEMType b.type = false)
    (hok : PEMCollectionFromBytes env (pre ++ k :: post) order = .ok col) :
    col.PrivateKey = k :: post := by
  obtain ⟨chain, priv, collection, hs, hsel, hcol⟩ :=
    pemCollectionFromBytes_ok_elim env _ order col hok
  subst hcol
  exact scanBundle_keySuffix env pre post k hk hpost [] [] chain priv hs

/-- C6: `ToTLSCertificate` dereferences the PEM decode of `Certificate` and of
`PrivateKey` without a presence check, so on a collection where either field
is empty (undecodable as PEM) the nil-dereference branch is reached. -/
theorem toTLSCertificate_undecodable_panics (env : Env) (col : PEMCollection)
    (h : pemDecode col.Certificate = none ∨ pemDecode col.PrivateKey = none) :
    ToTLSCertificate env col = none := by
  unfold ToTLSCertificate
  rcases h with h | h
  · rw [h]
  · cases hc : pemDecode col.Certificate with
    | none => rfl
    | some br =>
        obtain ⟨b, r⟩ := br
        cases hd : decodeChainDER col.Chain with
        | none => rfl
        | some chainDER => rw [h]

/-- C7: adding a private key to a collection that already holds one fails with
the duplicate-key error and leaves every field of the collection unchanged. -/
theorem addPrivateKey_duplicate_rejected (env : Env) (col : PEMCollection)
    (k : Signer) (pw : List Nat) (fmt : List String)
    (h : col.PrivateKey ≠ []) :
    AddPrivateKey env col k pw fmt =
      (col, some "vcert error: the PEM Collection can only contain one private key") := by
  simp [AddPrivateKey, h]

/-- C8: a bundle containing a CERTIFICATE block whose payload fails X.509
parsing makes the whole parse abort with an error — no collection is
returned — regardless of the other blocks. -/
theorem bundle_abort_on_bad_certificate (env : Env) (bs : List PEMBlock)
    (order : ChainOption)
    (hbad : ∃ b ∈ bs, b.type = "CERTIFICATE" ∧ env.parseCertOk b.bytes = false) :
    ∃ e, PEMCollectionFromBytes env bs order = .error e := by
  obtain ⟨e, he⟩ := scanBundle_err env bs [] [] hbad
  refine ⟨e, ?_⟩
  unfold PEMCollectionFromBytes
  rw [he]

/-- C9: `ChainOptionFromString` is total and case-insensitive: any casing of
"root-first" maps to `RootFirst`, any casing of "ignore" to `Ignore`, and
every other string to `RootLast`. -/
theorem chainOptionFromString_total (s : String) :
    (stringsToLower s = "root-first" → ChainOptionFromString s = ChainOption.RootFirst) ∧
    (stringsToLower s = "ignore" → ChainOptionFromString s = ChainOption.Ignore) ∧
    (stringsToLower s ≠ "root-first" → stringsToLower s ≠ "ignore" →
      ChainOptionFromString s = ChainOption.RootLast) := by
  refine ⟨fun h => ?_, fun h => ?_, fun h1 h2 => ?_⟩
  · simp [ChainOptionFromString, h]
  · simp [ChainOptionFromString, h]
  · simp [ChainOptionFromString, h1, h2]

/-- A well-formed chain entry: the PEM encoding of a CERTIFICATE block whose
payload is the raw DER of some certificate. -/
def chainEntryWF (e : List PEMBlock) : Prop :=
  ∃ raw, e = pemEncodeToMemory (GetCertificatePEMBlock raw)

/-- Every chain entry of a collection assembled by `selectCollection` is a
well-formed certificate entry. -/
theorem selectCollection_chain_wf (env : Env) (chain : List X509Certificate)
    (order : ChainOption) (c : PEMCollection)
    (hok : selectCollection env chain order = .ok c) :
    ∀ e ∈ c.Chain, chainEntryWF e := by
  cases chain with
  | nil =>
      simp only [selectCollection, Except.ok.injEq] at hok
      subst hok
      intro e he
      cases he
  | cons c0 rest =>
      simp only [selectCollection, newPEMCollection_cert_only] at hok
      by_cases ho : order = ChainOption.RootFirst
      · rw [if_pos ho] at hok
        by_cases hc : (c0 :: rest).length > 1 ∧ order ≠ ChainOption.Ignore
        · rw [if_pos hc, addChainElements_eq] at hok
          injection hok with h2
          subst h2
          intro e he
          simp only [List.nil_append] at he
          obtain ⟨a, _, rfl⟩ := List.mem_map.mp he
          exact ⟨a.raw, rfl⟩
        · rw [if_neg hc] at hok
          injection hok with h2
          subst h2
          intro e he
          cases he
      · rw [if_neg ho] at hok
        by_cases hc : (c0 :: rest).length > 1 ∧ order ≠ ChainOption.Ignore
        · rw [if_pos hc, addChainElements_eq] at hok
          injection hok with h2
          subst h2
          intro e he
          simp only [List.nil_append] at he
          obtain ⟨a, _, rfl⟩ := List.mem_map.mp he
          exact ⟨a.raw, rfl⟩
        · rw [if_neg hc] at hok
          injection hok with h2
          subst h2
          intro e he
          cases he

/-- C10: the chain-extending operations preserve well-formed chain entries —
`AddChainElement` appends a valid CERTIFICATE entry, and every entry of a
parsed bundle's chain is one — so the exporter's per-entry PEM decode never
yields nil on collections built through these operations. -/
theorem chain_entries_wellFormed (env : Env) (col : PEMCollection)
    (cert : X509Certificate) (bs : List PEMBlock) (order : ChainOption)
    (col2 : PEMCollection)
    (hwf : ∀ e ∈ col.Chain, chainEntryWF e)
    (hparse : PEMCollectionFromBytes env bs order = .ok col2) :
    (∀ e ∈ (AddChainElement col (some cert)).1.Chain, chainEntryWF e ∧ pemDecode e ≠ none) ∧
    (∀ e ∈ col2.Chain, chainEntryWF e ∧ pemDecode e ≠ none) := by
  have hdec : ∀ e, chainEntryWF e → pemDecode e ≠ none := by
    rintro e ⟨raw, rfl⟩
    simp [pemDecode, pemEncodeToMemory]
  constructor
  · intro e he
    simp only [AddChainElement] at he
    have hm : e ∈ col.Chain ++ [pemEncodeToMemory (GetCertificatePEMBlock cert.raw)] := he
    have hwfe : chainEntryWF e := by
      rcases List.mem_append.mp hm with h | h
      · exact hwf e h
      · rcases List.mem_singleton.mp h with rfl
        exact ⟨cert.raw, rfl⟩
    exact ⟨hwfe, hdec e hwfe⟩
  · obtain ⟨chain, priv, collection, hs, hsel, hcol⟩ :=
      pemCollectionFromBytes_ok_elim env bs order col2 hparse
    subst hcol
    intro e he
    have hwfe := selectCollection_chain_wf env chain order collection hsel e he
    exact ⟨hwfe, hdec e hwfe⟩

/-! ### Witnesses: each claim theorem evaluated at a concrete input -/

/-- C1 witness: a three-certificate bundle under `RootLast`. -/
theorem bundle_rootLast_spec_witness :
    ∃ col, PEMCollectionFromBytes defaultEnv
        [⟨"CERTIFICATE", [1]⟩, ⟨"CERTIFICATE", [2]⟩, ⟨"CERTIFICATE", [3]⟩]
        ChainOption.RootLast = .ok col ∧
      col.Certificate = pemEncodeToMemory (GetCertificatePEMBlock [1]) ∧
      col.Chain = [pemEncodeToMemory (GetCertificatePEMBlock [2]),
                   pemEncodeToMemory (GetCertificatePEMBlock [3])] ∧
      col.Chain.length = 2 :=
  bundle_rootLast_spec defaultEnv ⟨"CERTIFICATE", [1]⟩
    [⟨"CERTIFICATE", [2]⟩, ⟨"CERTIFICATE", [3]⟩] (by decide)

/-- C2 witness: the same bundle under `RootFirst`. -/
theorem bundle_rootFirst_spec_witness :
    ∃ col, PEMCollectionFromBytes defaultEnv
        [⟨"CERTIFICATE", [1]⟩, ⟨"CERTIFICATE", [2]⟩, ⟨"CERTIFICATE", [3]⟩]
        ChainOption.RootFirst = .ok col ∧
      col.Certificate = pemEncodeToMemory (GetCertificatePEMBlock [3]) ∧
      col.Chain = [pemEncodeToMemory (GetCertificatePEMBlock [1]),
                   pemEncodeToMemory (GetCertificatePEMBlock [2])] ∧
      col.Chain.length = 2 :=
  bundle_rootFirst_spec defaultEnv [⟨"CERTIFICATE", [1]⟩, ⟨"CERTIFICATE", [2]⟩]
    ⟨"CERTIFICATE", [3]⟩ (by decide)

/-- C3 witness: the same bundle under `Ignore`. -/
theorem bundle_ignore_spec_witness :
    ∃ col, PEMCollectionFromBytes defaultEnv
        [⟨"CERTIFICATE", [1]⟩, ⟨"CERTIFICATE", [2]⟩, ⟨"CERTIFICATE", [3]⟩]
        ChainOption.Ignore = .ok col ∧
      col.Chain = [] ∧
      col.Certificate = pemEncodeToMemory (GetCertificatePEMBlock [1]) :=
  bundle_ignore_spec defaultEnv ⟨"CERTIFICATE", [1]⟩
    [⟨"CERTIFICATE", [2]⟩, ⟨"CERTIFICATE", [3]⟩] (by decide)

/-- C4 witness: construct from a concrete certificate and key, then export. -/
theorem newFromCertificate_export_roundtrip_witness :
    ∃ tls, ToTLSCertificate defaultEnv
        { Certificate := pemEncodeToMemory (GetCertificatePEMBlock [1, 2]),
          PrivateKey := pemEncodeToMemory ⟨"RSA PRIVATE KEY", [9, 9]⟩ } = some tls ∧
      tls.Certificate.head? = some [1, 2] :=
  newFromCertificate_export_roundtrip defaultEnv ⟨[1, 2]⟩ ⟨0⟩ [] []
    { Certificate := pemEncodeToMemory (GetCertificatePEMBlock [1, 2]),
      PrivateKey := pemEncodeToMemory ⟨"RSA PRIVATE KEY", [9, 9]⟩ } rfl

/-- C5 witness: a bundle whose key block is followed by a certificate block;
the captured key region contains both, verbatim. -/
theorem privateKey_capture_suffix_witness :
    ({ Certificate := pemEncodeToMemory (GetCertificatePEMBlock [1]),
       PrivateKey := [⟨"RSA PRIVATE KEY", [7]⟩, ⟨"CERTIFICATE", [2]⟩],
       Chain := [pemEncodeToMemory (GetCertificatePEMBlock [2])],
       CSR := [] } : PEMCollection).PrivateKey =
      [⟨"RSA PRIVATE KEY", [7]⟩, ⟨"CERTIFICATE", [2]⟩] :=
  privateKey_capture_suffix defaultEnv [⟨"CERTIFICATE", [1]⟩] [⟨"CERTIFICATE", [2]⟩]
    ⟨"RSA PRIVATE KEY", [7]⟩ ChainOption.RootLast _ (by decide) (by decide) rfl

/-- C6 witness: the empty collection makes the exporter hit the nil
dereference. -/
theorem toTLSCertificate_undecodable_panics_witness :
    ToTLSCertificate defaultEnv {} = none :=
  toTLSCertificate_undecodable_panics defaultEnv {} (Or.inl rfl)

/-- C7 witness: a second key is rejected and the collection is unchanged. -/
theorem addPrivateKey_duplicate_rejected_witness :
    AddPrivateKey defaultEnv { PrivateKey := [⟨"RSA PRIVATE KEY", [7]⟩] } ⟨0⟩ [] [] =
      ({ PrivateKey := [⟨"RSA PRIVATE KEY", [7]⟩] },
       some "vcert error: the PEM Collection can only contain one private key") :=
  addPrivateKey_duplicate_rejected defaultEnv { PrivateKey := [⟨"RSA PRIVATE KEY", [7]⟩] }
    ⟨0⟩ [] [] (by decide)

/-- C8 witness: a bundle whose middle certificate block fails x509 parsing
(empty payload under `defaultEnv`) aborts the parse. -/
theorem bundle_abort_on_bad_certificate_witness :
    ∃ e, PEMCollectionFromBytes defaultEnv
        [⟨"CERTIFICATE", [1]⟩, ⟨"CERTIFICATE", []⟩, ⟨"CERTIFICATE", [2]⟩]
        ChainOption.RootLast = .error e :=
  bundle_abort_on_bad_certificate defaultEnv
    [⟨"CERTIFICATE", [1]⟩, ⟨"CERTIFICATE", []⟩, ⟨"CERTIFICATE", [2]⟩]
    ChainOption.RootLast (by decide)

/-- C9 witness: concrete casings and an unrecognized string. -/
theorem chainOptionFromString_total_witness :
    ChainOptionFromString "ROOT-First" = ChainOption.RootFirst ∧
    ChainOptionFromString "Ignore" = ChainOption.Ignore ∧
    ChainOptionFromString "bogus" = ChainOption.RootLast :=
  ⟨(chainOptionFromString_total "ROOT-First").1 (by decide),
   (chainOptionFromString_total "Ignore").2.1 (by decide),
   (chainOptionFromString_total "bogus").2.2 (by decide) (by decide)⟩

/-- C10 witness: the entry appended by `AddChainElement` on an empty-chain
collection is a well-formed certificate entry and decodes. -/
theorem chain_entries_wellFormed_witness :
    chainEntryWF (pemEncodeToMemory (GetCertificatePEMBlock [5])) ∧
    pemDecode (pemEncodeToMemory (GetCertificatePEMBlock [5])) ≠ none :=
  (chain_entries_wellFormed defaultEnv {} ⟨[5]⟩ [⟨"CERTIFICATE", [1]⟩]
      ChainOption.RootLast
      { Certificate := pemEncodeToMemory (GetCertificatePEMBlock [1]) }
      (fun e he => absurd he (List.not_mem_nil e)) rfl).1
    (pemEncodeToMemory (GetCertificatePEMBlock [5])) (by decide)

end VCert
